import Mathlib

/-!
Shallow embedding of the CPU-scheduling simulator in `Project1/main.go` and
verification of its specification claims.

Modelling conventions:
* Go `int64` values are modelled as `Int`.  None of the verified claims
  concerns 64-bit wraparound, so no modular reduction is inserted.
* The Go `float64` accumulators (`totalWait`, `turn`, ...) only ever receive
  integer increments (`float64(<int64 expression>)`), so they are modelled
  exactly as `Int`; the three derived averages, which genuinely divide, are
  modelled in `ℚ`.
* `sort.Slice` guarantees only *some* ordering of the slice consistent with
  the supplied `less` function (it is not stable).  It is modelled by the
  deterministic insertion sort `sortSlice`; every theorem below either is
  invariant under the choice of sorted permutation or is evaluated on inputs
  whose sort keys are pairwise distinct, where every correct implementation
  of `sort.Slice` produces the same unique result.
* Each scheduler loop is defined structurally over an explicit `Nat` bound
  (`fuel`).  The wrappers pass a bound that provably is never exhausted
  (exactly the iteration count for the non-preemptive loops, the measure
  `rrMeasure` for round-robin with quantum ≥ 1), so the functions coincide
  with the Go loops.
-/

set_option linter.unusedVariables false

/-- Go struct `Process` (fields `ProcessID`, `ArrivalTime`, `BurstDuration`,
`Priority`, all `int64`). -/
structure Process where
  ProcessID     : Int
  ArrivalTime   : Int
  BurstDuration : Int
  Priority      : Int
  deriving DecidableEq, Repr, Inhabited

/-- Go struct `TimeSlice` (fields `PID`, `Start`, `Stop`). -/
structure TimeSlice where
  PID   : Int
  Start : Int
  Stop  : Int
  deriving DecidableEq, Repr, Inhabited

/-- One row of the schedule table handed to `outputSchedule`; the Go code
builds it as `[]string` with columns ID, Priority, Burst, Arrival, Wait,
Turnaround, Exit.  All printed values are integer-valued, so the row is
modelled with `Int` fields. -/
structure MetricsRow where
  id         : Int
  priority   : Int
  burst      : Int
  arrival    : Int
  wait       : Int
  turnaround : Int
  completion : Int
  deriving DecidableEq, Repr, Inhabited

/-- The three footer statistics each scheduler hands to `outputSchedule`. -/
structure Aggregates where
  aveWait       : ℚ
  aveTurnaround : ℚ
  aveThroughput : ℚ
  deriving DecidableEq, Repr

/-- Go helper `func min(a, b int64) int64`. -/
def goMin (a b : Int) : Int := if a < b then a else b

/-- Go `func priorityPenalty(p Process) int64 { return (p.Priority - 1) * 5 }`. -/
def priorityPenalty (p : Process) : Int := (p.Priority - 1) * 5

/-- Insert an element in front of the first position whose element makes
`less x y` true (helper for `sortSlice`). -/
def insertLess (less : Process → Process → Bool) (x : Process) :
    List Process → List Process
  | [] => [x]
  | y :: ys => if less x y then x :: y :: ys else y :: insertLess less x ys

/-- Deterministic model of Go `sort.Slice processes less`: an insertion sort.
Go's `sort.Slice` promises only some permutation ordered by `less`; every
concrete input used below has pairwise-distinct sort keys, for which the
ordered permutation is unique. -/
def sortSlice (less : Process → Process → Bool) (l : List Process) :
    List Process :=
  l.foldr (insertLess less) []

/-- The `less` function of `SJFSchedule` and `RRSchedule`:
`processes[i].ArrivalTime < processes[j].ArrivalTime`. -/
def lessByArrival (p q : Process) : Bool :=
  decide (p.ArrivalTime < q.ArrivalTime)

/-- The `less` function of `SJFPrioritySchedule`: lexicographic on
(ArrivalTime, Priority, BurstDuration). -/
def lessByArrivalPriorityBurst (p q : Process) : Bool :=
  if p.ArrivalTime ≠ q.ArrivalTime then decide (p.ArrivalTime < q.ArrivalTime)
  else if p.Priority ≠ q.Priority then decide (p.Priority < q.Priority)
  else decide (p.BurstDuration < q.BurstDuration)

/-! First-come-first-serve scheduler (`FCFSSchedule`). -/

/-- The mutable locals of `FCFSSchedule` that live across loop iterations.
`waitingTime` is declared outside the loop in Go, so its value persists into
the next iteration when the `ArrivalTime > 0` guard is false. -/
structure FCFSState where
  serviceTime     : Int
  totalWait       : Int
  totalTurnaround : Int
  lastCompletion  : Int
  waitingTime     : Int
  schedule        : List MetricsRow
  gantt           : List TimeSlice
  deriving DecidableEq, Repr

def fcfsInit : FCFSState := ⟨0, 0, 0, 0, 0, [], []⟩

/-- One iteration of the `for i := range processes` loop of `FCFSSchedule`. -/
def fcfsStep (s : FCFSState) (p : Process) : FCFSState :=
  let waitingTime :=
    if p.ArrivalTime > 0 then s.serviceTime - p.ArrivalTime else s.waitingTime
  let start := waitingTime + p.ArrivalTime
  let turnaround := p.BurstDuration + waitingTime
  let completion := p.BurstDuration + p.ArrivalTime + waitingTime
  let serviceTime := s.serviceTime + p.BurstDuration
  { serviceTime := serviceTime
    totalWait := s.totalWait + waitingTime
    totalTurnaround := s.totalTurnaround + turnaround
    lastCompletion := completion
    waitingTime := waitingTime
    schedule := s.schedule ++
      [⟨p.ProcessID, p.Priority, p.BurstDuration, p.ArrivalTime,
        waitingTime, turnaround, completion⟩]
    gantt := s.gantt ++ [⟨p.ProcessID, start, serviceTime⟩] }

/-- The loop of `FCFSSchedule` over the caller's slice (FCFS performs no
sort and no copy; it only reads the slice). -/
def fcfsRun (ps : List Process) : FCFSState := ps.foldl fcfsStep fcfsInit

/-- `FCFSSchedule`: the loop plus the three footer statistics
(`totalWait/count`, `totalTurnaround/count`, `count/lastCompletion`). -/
def FCFSSchedule (ps : List Process) : FCFSState × Aggregates :=
  let s := fcfsRun ps
  let count : ℚ := ps.length
  (s, ⟨(s.totalWait : ℚ) / count, (s.totalTurnaround : ℚ) / count,
    count / (s.lastCompletion : ℚ)⟩)

/-- Wait-time rule actually implemented by `FCFSSchedule` (the amended claim
C1): a process with positive arrival time gets `serviceSoFar - arrival`
(which is never clamped at 0), and a process with arrival time ≤ 0 inherits
the previous process's wait value (initially 0). -/
def fcfsWaitRule (prevWait serviceSoFar : Int) : List Process → List Int
  | [] => []
  | p :: rest =>
    let w := if p.ArrivalTime > 0 then serviceSoFar - p.ArrivalTime else prevWait
    w :: fcfsWaitRule w (serviceSoFar + p.BurstDuration) rest

lemma fcfs_foldl_wait (ps : List Process) :
    ∀ s : FCFSState,
      ((ps.foldl fcfsStep s).schedule).map MetricsRow.wait
        = s.schedule.map MetricsRow.wait
            ++ fcfsWaitRule s.waitingTime s.serviceTime ps := by
  induction ps with
  | nil => intro s; simp [fcfsWaitRule]
  | cons p rest ih =>
      intro s
      simp only [List.foldl_cons, ih, fcfsWaitRule, fcfsStep]
      simp [List.map_append]

/-! Shortest-job-first scheduler (`SJFSchedule`). -/

/-- Index left in `shortestIndex` by the Go scan
`for i := range remainingProcesses { if r[i].BurstDuration < r[shortestIndex].BurstDuration { shortestIndex = i } }`:
the first index holding the minimal burst.  The recursion below computes the
same index: the head wins unless some element of the tail has a strictly
smaller burst, in which case the tail's first minimal index (shifted by one)
wins, exactly as the strict `<` replacement rule keeps the earliest
occurrence of the minimum. -/
def sjfSelectIdx : List Process → Nat
  | [] => 0
  | [_] => 0
  | p :: q :: rest =>
    let j := sjfSelectIdx (q :: rest)
    if ((q :: rest).getD j default).BurstDuration < p.BurstDuration then j + 1
    else 0

/-- Burst value read through the Go pointer `shortest = &remaining[k]` after
`remaining = append(remaining[:i], remaining[i+1:]...)` (with `i ≤ k`) has
shifted the elements `i+1 …` one slot down in the same backing array:
position `k` then holds the old element `k+1`, unless `k` was the last
index, where it still holds the old element `k`. -/
def postRemovalBurst (l : List Process) (k : Nat) : Int :=
  (l.getD (if k + 1 < l.length then k + 1 else k) default).BurstDuration

/-- The mutable locals shared by the `SJFSchedule` and `SJFPrioritySchedule`
loops (`currTime`, `waitTime`, `turn`, `gantt`, and the appended table
rows). -/
structure SJFState where
  currTime : Int
  waitTime : Int
  turn     : Int
  gantt    : List TimeSlice
  rows     : List MetricsRow
  deriving DecidableEq, Repr

/-- One iteration of the `SJFSchedule` loop on a non-empty remaining slice:
select the first globally-minimal burst, advance the clock to its arrival if
needed, emit the time slice and the table row, update the accumulators
(`turn` uses the already-updated `waitTime`, as in the Go code), remove the
element, and finally advance the clock by `shortest.BurstDuration` — which,
read through the dangling pointer, is `postRemovalBurst l k`. -/
def sjfStep (l : List Process) (s : SJFState) : List Process × SJFState :=
  let k := sjfSelectIdx l
  let shortest := l.getD k default
  let t1 :=
    if shortest.ArrivalTime > s.currTime then shortest.ArrivalTime else s.currTime
  let waitTime := s.waitTime + (t1 - shortest.ArrivalTime)
  let turn :=
    s.turn + ((t1 + shortest.BurstDuration - shortest.ArrivalTime) - waitTime)
  (l.eraseIdx k,
    { currTime := t1 + postRemovalBurst l k
      waitTime := waitTime
      turn := turn
      gantt := s.gantt ++
        [⟨shortest.ProcessID, t1, t1 + shortest.BurstDuration⟩]
      rows := s.rows ++
        [⟨shortest.ProcessID, shortest.Priority, shortest.BurstDuration,
          shortest.ArrivalTime, t1 - shortest.ArrivalTime,
          t1 + shortest.BurstDuration - shortest.ArrivalTime,
          t1 + shortest.BurstDuration⟩] })

/-- The `for len(remainingProcesses) > 0` loop of `SJFSchedule`; each
iteration removes exactly one element, so the loop runs exactly
`remaining.length` times and the wrapper passes that as the structural
bound. -/
def sjfLoopN : Nat → List Process → SJFState → SJFState
  | 0, _, s => s
  | _ + 1, [], s => s
  | n + 1, p :: l, s =>
    let r := sjfStep (p :: l) s
    sjfLoopN n r.1 r.2

/-- `SJFSchedule`: sort the caller's slice in place by arrival time, run the
loop on a fresh copy, then produce the footer statistics. -/
def SJFSchedule (ps : List Process) : SJFState × Aggregates :=
  let sorted := sortSlice lessByArrival ps
  let s := sjfLoopN sorted.length sorted ⟨0, 0, 0, [], []⟩
  let count : ℚ := ps.length
  (s, ⟨(s.waitTime : ℚ) / count, (s.turn : ℚ) / count,
    count / (s.currTime : ℚ)⟩)

/-- The table of rows each append-based scheduler hands to
`outputSchedule`: `make([][]string, n)` pre-fills `n` empty rows and the
loop appends the computed rows after them. -/
def handedTable (n : Nat) (rows : List MetricsRow) : List (Option MetricsRow) :=
  List.replicate n none ++ rows.map some

def sjfHandedTable (ps : List Process) : List (Option MetricsRow) :=
  handedTable ps.length (SJFSchedule ps).1.rows

/-! Shortest-job-first with priority tie-break (`SJFPrioritySchedule`). -/

/-- The strict replacement test of the `SJFPrioritySchedule` selection scan:
`r[i].BurstDuration < shortest.BurstDuration || (r[i].BurstDuration == shortest.BurstDuration && r[i].Priority < shortest.Priority)`. -/
def sjfpBetter (p q : Process) : Bool :=
  decide (p.BurstDuration < q.BurstDuration ∨
    (p.BurstDuration = q.BurstDuration ∧ p.Priority < q.Priority))

/-- Index left in the Go pointer `shortest` by the `SJFPrioritySchedule`
selection scan, or `none` when no remaining process has
`ArrivalTime ≤ currTime`.  The scan keeps the earliest eligible element and
replaces it only by a strictly `sjfpBetter` later one, which is what the
recursion below computes (on ties the head, i.e. the earliest index,
wins). -/
def sjfpSelect (currTime : Int) : List Process → Option Nat
  | [] => none
  | p :: rest =>
    match sjfpSelect currTime rest with
    | none => if p.ArrivalTime ≤ currTime then some 0 else none
    | some j =>
      if p.ArrivalTime ≤ currTime then
        if sjfpBetter (rest.getD j default) p then some (j + 1) else some 0
      else some (j + 1)

/-- Body of the idle-branch scan of `SJFPrioritySchedule`: lower the
candidate to an arrival that is both past the current clock and below the
candidate. -/
def nextArrivalFold (currTime cand : Int) (p : Process) : Int :=
  if p.ArrivalTime > currTime ∧ p.ArrivalTime < cand then p.ArrivalTime
  else cand

/-- The idle-branch computation of `SJFPrioritySchedule`: start from
`remaining[0].ArrivalTime` and scan the whole remaining slice. -/
def nextArrivalTime (l : List Process) (currTime : Int) : Int :=
  l.foldl (nextArrivalFold currTime) ((l.getD 0 default).ArrivalTime)

/-- The removal loop of `SJFPrioritySchedule`: delete the first element
whose `ProcessID` equals the selected process's id. -/
def removeFirstByID (id : Int) : List Process → List Process
  | [] => []
  | p :: rest => if p.ProcessID = id then rest else p :: removeFirstByID id rest

/-- The `shortest != nil` branch of the `SJFPrioritySchedule` loop, with the
selected index `k`: emit slice and row at the current clock (this policy has
no pre-advance), update the accumulators (`turn` uses the already-updated
`waitTime`), remove the first element with the selected id, and advance the
clock by `shortest.BurstDuration` read through the dangling pointer
(`postRemovalBurst l k`, since the removal index is never larger than
`k`). -/
def sjfpStep (l : List Process) (k : Nat) (s : SJFState) :
    List Process × SJFState :=
  let shortest := l.getD k default
  let waitTime := s.waitTime + (s.currTime - shortest.ArrivalTime)
  let turn :=
    s.turn +
      ((s.currTime + shortest.BurstDuration - shortest.ArrivalTime) - waitTime)
  (removeFirstByID shortest.ProcessID l,
    { currTime := s.currTime + postRemovalBurst l k
      waitTime := waitTime
      turn := turn
      gantt := s.gantt ++
        [⟨shortest.ProcessID, s.currTime, s.currTime + shortest.BurstDuration⟩]
      rows := s.rows ++
        [⟨shortest.ProcessID, shortest.Priority, shortest.BurstDuration,
          shortest.ArrivalTime, s.currTime - shortest.ArrivalTime,
          s.currTime + shortest.BurstDuration - shortest.ArrivalTime,
          s.currTime + shortest.BurstDuration⟩] })

/-- One round of the `SJFPrioritySchedule` loop.  A Go iteration whose
selection finds no eligible process only sets `currTime = nextArrivalTime`;
the following iteration then necessarily finds an eligible process (proved
in `sjfpSelect_nextArrival_isSome` below), so that idle iteration is fused
with its successor here.  The final fallback branch is unreachable. -/
def sjfpRound (l : List Process) (s : SJFState) : List Process × SJFState :=
  match sjfpSelect s.currTime l with
  | some k => sjfpStep l k s
  | none =>
    let t := nextArrivalTime l s.currTime
    match sjfpSelect t l with
    | some k => sjfpStep l k { s with currTime := t }
    | none => (l, { s with currTime := t })

/-- The `for len(remainingProcesses) > 0` loop of `SJFPrioritySchedule`;
every round removes exactly one element, so `remaining.length` rounds
suffice. -/
def sjfpLoopN : Nat → List Process → SJFState → SJFState
  | 0, _, s => s
  | _ + 1, [], s => s
  | n + 1, p :: l, s =>
    let r := sjfpRound (p :: l) s
    sjfpLoopN n r.1 r.2

/-- `SJFPrioritySchedule`: sort the caller's slice in place by
(arrival, priority, burst), run the loop on a fresh copy, then produce the
footer statistics. -/
def SJFPrioritySchedule (ps : List Process) : SJFState × Aggregates :=
  let sorted := sortSlice lessByArrivalPriorityBurst ps
  let s := sjfpLoopN sorted.length sorted ⟨0, 0, 0, [], []⟩
  let count : ℚ := ps.length
  (s, ⟨(s.waitTime : ℚ) / count, (s.turn : ℚ) / count,
    count / (s.currTime : ℚ)⟩)

def sjfpHandedTable (ps : List Process) : List (Option MetricsRow) :=
  handedTable ps.length (SJFPrioritySchedule ps).1.rows

/-! Round-robin scheduler (`RRSchedule`). -/

/-- The mutable locals of the `RRSchedule` loop. -/
structure RRState where
  elapsed : Int
  wait    : Int
  turn    : Int
  gantt   : List TimeSlice
  rows    : List MetricsRow
  deriving DecidableEq, Repr

/-- Fuel bound for the round-robin queue: with quantum ≥ 1 it strictly
decreases every iteration (`rrMeasure_reenqueue_lt` below), so it bounds the
number of loop iterations. -/
def rrMeasure (queue : List Process) : Nat :=
  (queue.map (fun p => p.BurstDuration.toNat + 1)).sum

/-- The `for len(queue) > 0` loop of `RRSchedule`: dequeue the head, run it
for `min(p.BurstDuration, quantum)`, append the time slice, advance
`elapsed`, decrement the burst; re-enqueue at the tail while the burst stays
positive, otherwise record the metrics row (whose Burst column is the
already-decremented `p.BurstDuration`) with
`w = elapsed - arrival - priorityPenalty(p)` and `t = elapsed - arrival`. -/
def rrLoopN (quantum : Int) : Nat → List Process → RRState → RRState
  | 0, _, s => s
  | _ + 1, [], s => s
  | n + 1, p :: queue, s =>
    let ran := goMin p.BurstDuration quantum
    let elapsed := s.elapsed + ran
    let gantt := s.gantt ++ [⟨p.ProcessID, s.elapsed, s.elapsed + ran⟩]
    let p' : Process := { p with BurstDuration := p.BurstDuration - ran }
    if p'.BurstDuration > 0 then
      rrLoopN quantum n (queue ++ [p']) { s with elapsed := elapsed, gantt := gantt }
    else
      let w := elapsed - p'.ArrivalTime - priorityPenalty p'
      let t := elapsed - p'.ArrivalTime
      rrLoopN quantum n queue
        { elapsed := elapsed, wait := s.wait + w, turn := s.turn + t,
          gantt := gantt,
          rows := s.rows ++
            [⟨p'.ProcessID, p'.Priority, p'.BurstDuration, p'.ArrivalTime,
              w, t, elapsed⟩] }

/-- `RRSchedule`: sort the caller's slice in place by arrival time, run the
loop on a fresh copy, then produce the footer statistics. -/
def RRSchedule (ps : List Process) (quantum : Int) : RRState × Aggregates :=
  let sorted := sortSlice lessByArrival ps
  let s := rrLoopN quantum (rrMeasure sorted) sorted ⟨0, 0, 0, [], []⟩
  let count : ℚ := ps.length
  (s, ⟨(s.wait : ℚ) / count, (s.turn : ℚ) / count,
    count / (s.elapsed : ℚ)⟩)

def rrHandedTable (ps : List Process) (quantum : Int) :
    List (Option MetricsRow) :=
  handedTable ps.length (RRSchedule ps quantum).1.rows

/-- Post-call contents of the caller's slice: `FCFSSchedule` only reads it,
while the other three schedulers hand it to `sort.Slice`, which reorders it
in place before the private working copy is taken. -/
def fcfsCallerAfter (ps : List Process) : List Process := ps

def sjfCallerAfter (ps : List Process) : List Process :=
  sortSlice lessByArrival ps

def sjfpCallerAfter (ps : List Process) : List Process :=
  sortSlice lessByArrivalPriorityBurst ps

def rrCallerAfter (ps : List Process) : List Process :=
  sortSlice lessByArrival ps

/-! Derived observations used by the claims. -/

/-- Total duration of the Gantt slices bearing pid `x`. -/
def sliceDurSum (g : List TimeSlice) (x : Int) : Int :=
  ((g.filter (fun t => t.PID == x)).map (fun t => t.Stop - t.Start)).sum

/-- Total burst of the processes with id `x`. -/
def burstSum (ps : List Process) (x : Int) : Int :=
  ((ps.filter (fun p => p.ProcessID == x)).map Process.BurstDuration).sum

/-- The (id, burst) columns of a table row. -/
def rowKey (r : MetricsRow) : Int × Int := (r.id, r.burst)

/-- The (id, burst) fields of a process. -/
def procKey (p : Process) : Int × Int := (p.ProcessID, p.BurstDuration)

lemma sliceDurSum_concat (g : List TimeSlice) (ts : TimeSlice) (x : Int) :
    sliceDurSum (g ++ [ts]) x
      = sliceDurSum g x + (if ts.PID = x then ts.Stop - ts.Start else 0) := by
  by_cases h : ts.PID = x <;>
    simp [sliceDurSum, List.filter_append, List.filter_cons, h]

lemma burstSum_nil (x : Int) : burstSum [] x = 0 := rfl

lemma burstSum_cons (p : Process) (ps : List Process) (x : Int) :
    burstSum (p :: ps) x
      = (if p.ProcessID = x then p.BurstDuration else 0) + burstSum ps x := by
  by_cases h : p.ProcessID = x <;>
    simp [burstSum, List.filter_cons, h, add_comm]

lemma burstSum_concat (ps : List Process) (p : Process) (x : Int) :
    burstSum (ps ++ [p]) x
      = burstSum ps x + (if p.ProcessID = x then p.BurstDuration else 0) := by
  by_cases h : p.ProcessID = x <;>
    simp [burstSum, List.filter_append, List.filter_cons, h]

lemma burstSum_perm {l₁ l₂ : List Process} (h : l₁.Perm l₂) (x : Int) :
    burstSum l₁ x = burstSum l₂ x :=
  List.Perm.sum_eq ((h.filter _).map _)

lemma burstSum_eq_zero_of_not_mem {ps : List Process} {x : Int}
    (h : x ∉ ps.map Process.ProcessID) : burstSum ps x = 0 := by
  induction ps with
  | nil => rfl
  | cons p rest ih =>
      simp only [List.map_cons, List.mem_cons] at h
      push_neg at h
      rw [burstSum_cons, if_neg (fun hc => h.1 hc.symm), ih h.2, add_zero]

lemma burstSum_nodup {ps : List Process} {p : Process}
    (hnd : (ps.map Process.ProcessID).Nodup) (hp : p ∈ ps) :
    burstSum ps p.ProcessID = p.BurstDuration := by
  induction ps with
  | nil => cases hp
  | cons q rest ih =>
      simp only [List.map_cons, List.nodup_cons] at hnd
      rcases List.mem_cons.mp hp with h | h
      · subst h
        rw [burstSum_cons, if_pos rfl,
          burstSum_eq_zero_of_not_mem hnd.1, add_zero]
      · have hne : q.ProcessID ≠ p.ProcessID := by
          intro hc
          exact hnd.1 (hc ▸ List.mem_map_of_mem Process.ProcessID h)
        rw [burstSum_cons, if_neg hne, ih hnd.2 h, zero_add]

lemma perm_getD_cons_eraseIdx :
    ∀ (l : List Process) (k : Nat), k < l.length →
      l.Perm ((l.getD k default) :: l.eraseIdx k)
  | [], k, h => by simp at h
  | p :: rest, 0, _ => by simp
  | p :: rest, k + 1, h => by
      have hk : k < rest.length := by simpa using h
      have h1 : (p :: rest).Perm (p :: (rest.getD k default :: rest.eraseIdx k)) :=
        (perm_getD_cons_eraseIdx rest k hk).cons p
      have h2 :
          (p :: (rest.getD k default :: rest.eraseIdx k)).Perm
            (rest.getD k default :: p :: rest.eraseIdx k) :=
        List.Perm.swap _ _ _
      simpa using h1.trans h2

lemma burstSum_eraseIdx (l : List Process) (k : Nat) (h : k < l.length)
    (x : Int) :
    burstSum l x
      = (if (l.getD k default).ProcessID = x
          then (l.getD k default).BurstDuration else 0)
        + burstSum (l.eraseIdx k) x := by
  rw [burstSum_perm (perm_getD_cons_eraseIdx l k h) x, burstSum_cons]

lemma insertLess_perm (less : Process → Process → Bool) (x : Process) :
    ∀ l : List Process, (insertLess less x l).Perm (x :: l)
  | [] => List.Perm.refl _
  | y :: ys => by
      unfold insertLess
      split
      · exact List.Perm.refl _
      · exact ((insertLess_perm less x ys).cons y).trans (List.Perm.swap _ _ _)

lemma sortSlice_perm (less : Process → Process → Bool) :
    ∀ l : List Process, (sortSlice less l).Perm l
  | [] => List.Perm.refl _
  | p :: rest => by
      unfold sortSlice
      exact (insertLess_perm less p _).trans
        (((sortSlice_perm less rest).cons p))

lemma sjfpBetter_irrefl (p : Process) : sjfpBetter p p = false := by
  simp [sjfpBetter]

lemma sjfpBetter_asymm {a b : Process} (h : sjfpBetter a b = true) :
    sjfpBetter b a = false := by
  simp only [sjfpBetter, decide_eq_true_eq] at h
  simp only [sjfpBetter, decide_eq_false_iff_not]
  omega

lemma sjfpBetter_neg_trans {x g p : Process} (h1 : sjfpBetter x g = false)
    (h2 : sjfpBetter x p = true) : sjfpBetter g p = true := by
  simp only [sjfpBetter, decide_eq_false_iff_not] at h1
  simp only [sjfpBetter, decide_eq_true_eq] at h2 ⊢
  omega

lemma sjfpSelect_none_iff (t : Int) :
    ∀ l : List Process, sjfpSelect t l = none ↔ ∀ p ∈ l, t < p.ArrivalTime
  | [] => by simp [sjfpSelect]
  | p :: rest => by
      have ih := sjfpSelect_none_iff t rest
      rw [sjfpSelect]
      split
      next h' =>
        have hrest := ih.mp h'
        by_cases he : p.ArrivalTime ≤ t
        · rw [if_pos he]
          constructor
          · intro hc; exact Option.noConfusion hc
          · intro hall
            exact absurd he (not_le.mpr (hall p (List.mem_cons_self p rest)))
        · rw [if_neg he]
          constructor
          · intro _ q hq
            rcases List.mem_cons.mp hq with rfl | hq'
            · exact not_le.mp he
            · exact hrest q hq'
          · intro _
            rfl
      next j h' =>
        constructor
        · intro hc
          split at hc
          · split at hc <;> exact Option.noConfusion hc
          · exact Option.noConfusion hc
        · intro hall
          have hn : sjfpSelect t rest = none :=
            ih.mpr fun q hq => hall q (List.mem_cons_of_mem p hq)
          rw [hn] at h'
          cases h'

lemma sjfpSelect_spec (t : Int) :
    ∀ (l : List Process) (k : Nat), sjfpSelect t l = some k →
      k < l.length ∧ (l.getD k default).ArrivalTime ≤ t ∧
        ∀ p ∈ l, p.ArrivalTime ≤ t →
          sjfpBetter p (l.getD k default) = false
  | [], k, h => by simp [sjfpSelect] at h
  | p :: rest, k, h => by
      rw [sjfpSelect] at h
      split at h
      next h' =>
        by_cases he : p.ArrivalTime ≤ t
        · rw [if_pos he] at h
          injection h with h
          subst h
          refine ⟨by simp, by simpa using he, ?_⟩
          intro x hx hxe
          rcases List.mem_cons.mp hx with rfl | hx'
          · simpa using sjfpBetter_irrefl x
          · exact absurd hxe
              (not_le.mpr ((sjfpSelect_none_iff t rest).mp h' x hx'))
        · rw [if_neg he] at h
          exact Option.noConfusion h
      next j h' =>
        obtain ⟨hj, hje, hjmin⟩ := sjfpSelect_spec t rest j h'
        by_cases he : p.ArrivalTime ≤ t
        · rw [if_pos he] at h
          by_cases hb : sjfpBetter (rest.getD j default) p = true
          · rw [if_pos hb] at h
            injection h with h
            subst h
            refine ⟨by simpa using Nat.succ_lt_succ hj, by simpa using hje, ?_⟩
            intro x hx hxe
            rcases List.mem_cons.mp hx with rfl | hx'
            · simpa using sjfpBetter_asymm hb
            · simpa using hjmin x hx' hxe
          · rw [if_neg hb] at h
            injection h with h
            subst h
            refine ⟨by simp, by simpa using he, ?_⟩
            intro x hx hxe
            rcases List.mem_cons.mp hx with rfl | hx'
            · simpa using sjfpBetter_irrefl x
            · simp only [List.getD_cons_zero]
              cases hxp : sjfpBetter x p with
              | false => rfl
              | true =>
                  have hgp := sjfpBetter_neg_trans (hjmin x hx' hxe) hxp
                  rw [hgp] at hb
                  exact absurd rfl hb
        · rw [if_neg he] at h
          injection h with h
          subst h
          refine ⟨by simpa using Nat.succ_lt_succ hj, by simpa using hje, ?_⟩
          intro x hx hxe
          rcases List.mem_cons.mp hx with rfl | hx'
          · exact absurd hxe he
          · simpa using hjmin x hx' hxe

lemma nextArrivalFold_aux (t : Int) :
    ∀ (l : List Process) (cand : Int), (∀ p ∈ l, t < p.ArrivalTime) →
      l.foldl (nextArrivalFold t) cand ≤ cand ∧
      (l.foldl (nextArrivalFold t) cand = cand ∨
        ∃ p ∈ l, l.foldl (nextArrivalFold t) cand = p.ArrivalTime) ∧
      ∀ p ∈ l, l.foldl (nextArrivalFold t) cand ≤ p.ArrivalTime
  | [], cand, _ => by simp
  | p :: rest, cand, hall => by
      have hp := hall p (List.mem_cons_self p rest)
      have ih := nextArrivalFold_aux t rest (nextArrivalFold t cand p)
        (fun q hq => hall q (List.mem_cons_of_mem p hq))
      have hc1 : nextArrivalFold t cand p ≤ cand := by
        unfold nextArrivalFold
        split
        next hcond => exact le_of_lt hcond.2
        next => exact le_refl _
      have hc2 : nextArrivalFold t cand p ≤ p.ArrivalTime := by
        unfold nextArrivalFold
        split
        next => exact le_refl _
        next hcond =>
          rcases not_and_or.mp hcond with hna | hnl
          · exact absurd hp hna
          · exact le_of_not_lt hnl
      have hc3 : nextArrivalFold t cand p = cand ∨
          nextArrivalFold t cand p = p.ArrivalTime := by
        unfold nextArrivalFold
        split
        next => exact Or.inr rfl
        next => exact Or.inl rfl
      refine ⟨le_trans ih.1 hc1, ?_, ?_⟩
      · rcases ih.2.1 with heq | ⟨q, hq, hqe⟩
        · rw [List.foldl_cons, heq]
          rcases hc3 with h | h
          · exact Or.inl h
          · exact Or.inr ⟨p, List.mem_cons_self p rest, h⟩
        · exact Or.inr ⟨q, List.mem_cons_of_mem p hq, by simpa using hqe⟩
      · intro q hq
        rcases List.mem_cons.mp hq with rfl | hq'
        · exact le_trans ih.1 hc2
        · simpa using ih.2.2 q hq'

lemma nextArrivalTime_spec (l : List Process) (t : Int) (hne : l ≠ [])
    (hall : ∀ p ∈ l, t < p.ArrivalTime) :
    t < nextArrivalTime l t ∧
    (∃ p ∈ l, p.ArrivalTime = nextArrivalTime l t) ∧
    ∀ p ∈ l, nextArrivalTime l t ≤ p.ArrivalTime := by
  have hlen : 0 < l.length := List.length_pos.mpr hne
  have hmem : l.getD 0 default ∈ l := by
    rw [List.getD_eq_getElem l default hlen]
    exact List.getElem_mem hlen
  obtain ⟨h1, h2, h3⟩ :=
    nextArrivalFold_aux t l ((l.getD 0 default).ArrivalTime) hall
  have hex : ∃ p ∈ l, p.ArrivalTime = nextArrivalTime l t := by
    rcases h2 with heq | ⟨q, hq, hqe⟩
    · exact ⟨l.getD 0 default, hmem, heq.symm⟩
    · exact ⟨q, hq, hqe.symm⟩
  refine ⟨?_, hex, h3⟩
  obtain ⟨q, hq, hqe⟩ := hex
  exact hqe ▸ hall q hq

lemma sjfpSelect_nextArrival_ne_none (l : List Process) (t : Int)
    (hne : l ≠ []) (h : sjfpSelect t l = none) :
    sjfpSelect (nextArrivalTime l t) l ≠ none := by
  have hall := (sjfpSelect_none_iff t l).mp h
  obtain ⟨_, ⟨q, hq, hqe⟩, _⟩ := nextArrivalTime_spec l t hne hall
  intro hc
  have := (sjfpSelect_none_iff (nextArrivalTime l t) l).mp hc q hq
  omega

lemma removeFirstByID_length {x : Int} :
    ∀ l : List Process, x ∈ l.map Process.ProcessID →
      (removeFirstByID x l).length + 1 = l.length
  | [], h => by cases h
  | p :: rest, h => by
      unfold removeFirstByID
      by_cases hp : p.ProcessID = x
      · simp [hp]
      · have hx : x ∈ rest.map Process.ProcessID := by
          rcases List.mem_map.mp h with ⟨q, hq, hqe⟩
          rcases List.mem_cons.mp hq with rfl | hq'
          · exact absurd hqe hp
          · exact hqe ▸ List.mem_map_of_mem Process.ProcessID hq'
        have ih := removeFirstByID_length rest hx
        rw [if_neg hp]
        simp only [List.length_cons]
        omega

lemma removeFirstByID_map_pid_perm {x : Int} :
    ∀ l : List Process, x ∈ l.map Process.ProcessID →
      (l.map Process.ProcessID).Perm
        (x :: (removeFirstByID x l).map Process.ProcessID)
  | [], h => by cases h
  | p :: rest, h => by
      unfold removeFirstByID
      by_cases hp : p.ProcessID = x
      · simp [hp]
      · have hx : x ∈ rest.map Process.ProcessID := by
          rcases List.mem_map.mp h with ⟨q, hq, hqe⟩
          rcases List.mem_cons.mp hq with rfl | hq'
          · exact absurd hqe hp
          · exact hqe ▸ List.mem_map_of_mem Process.ProcessID hq'
        have ih := removeFirstByID_map_pid_perm rest hx
        simp only [hp, if_neg, List.map_cons]
        exact (ih.cons p.ProcessID).trans (List.Perm.swap _ _ _)

lemma getD_mem_of_lt {l : List Process} {k : Nat} (h : k < l.length) :
    l.getD k default ∈ l := by
  rw [List.getD_eq_getElem l default h]
  exact List.getElem_mem h

lemma removeFirstByID_eq_eraseIdx :
    ∀ (l : List Process) (k : Nat), k < l.length →
      (l.map Process.ProcessID).Nodup →
      removeFirstByID ((l.getD k default).ProcessID) l = l.eraseIdx k
  | [], k, h, _ => by simp at h
  | p :: rest, 0, _, _ => by simp [removeFirstByID]
  | p :: rest, k + 1, h, hnd => by
      have hk : k < rest.length := by simpa using h
      simp only [List.map_cons, List.nodup_cons] at hnd
      have hmem : (rest.getD k default).ProcessID ∈ rest.map Process.ProcessID :=
        List.mem_map_of_mem Process.ProcessID (getD_mem_of_lt hk)
      have hne : p.ProcessID ≠ (rest.getD k default).ProcessID := by
        intro hc
        exact hnd.1 (hc ▸ hmem)
      rw [List.getD_cons_succ, removeFirstByID, if_neg hne,
        List.eraseIdx_cons_succ,
        removeFirstByID_eq_eraseIdx rest k hk hnd.2]

lemma sjfSelectIdx_lt_length :
    ∀ l : List Process, l ≠ [] → sjfSelectIdx l < l.length
  | [], h => absurd rfl h
  | [p], _ => by simp [sjfSelectIdx]
  | p :: q :: rest, _ => by
      have ih := sjfSelectIdx_lt_length (q :: rest) (by simp)
      unfold sjfSelectIdx
      dsimp only
      split
      · simpa using Nat.succ_lt_succ ih
      · simp

lemma sjfSelectIdx_min :
    ∀ (l : List Process), ∀ x ∈ l,
      ((l.getD (sjfSelectIdx l) default)).BurstDuration ≤ x.BurstDuration
  | [], x, hx => by cases hx
  | [p], x, hx => by
      rcases List.mem_singleton.mp hx with rfl
      simp [sjfSelectIdx]
  | p :: q :: rest, x, hx => by
      have ih := sjfSelectIdx_min (q :: rest)
      unfold sjfSelectIdx
      dsimp only
      split
      next h =>
        rcases List.mem_cons.mp hx with rfl | hx'
        · simpa using le_of_lt h
        · simpa using ih x hx'
      next h =>
        rcases List.mem_cons.mp hx with rfl | hx'
        · simp
        · have h1 := ih x hx'
          have hpl := not_lt.mp h
          simpa using le_trans hpl h1




lemma getLastD_append_single (l : List TimeSlice) (a d : TimeSlice) :
    (l ++ [a]).getLastD d = a := by
  induction l with
  | nil => rfl
  | cons x xs ih =>
      cases xs with
      | nil => rfl
      | cons y ys => simpa using ih

lemma getLastD_append_single_row (l : List MetricsRow) (a d : MetricsRow) :
    (l ++ [a]).getLastD d = a := by
  induction l with
  | nil => rfl
  | cons x xs ih =>
      cases xs with
      | nil => rfl
      | cons y ys => simpa using ih

/-! Invariants of the FCFS loop. -/

lemma fcfs_foldl_keys (ps : List Process) :
    ∀ s : FCFSState,
      ((ps.foldl fcfsStep s).schedule).map rowKey
        = s.schedule.map rowKey ++ ps.map procKey := by
  induction ps with
  | nil => intro s; simp
  | cons p rest ih =>
      intro s
      simp only [List.foldl_cons, ih, fcfsStep]
      simp [rowKey, procKey, List.map_append]

lemma fcfs_foldl_gantt_sum (ps : List Process)
    (hpos : ∀ p ∈ ps, 0 < p.ArrivalTime) :
    ∀ (s : FCFSState) (x : Int),
      sliceDurSum ((ps.foldl fcfsStep s).gantt) x
        = sliceDurSum s.gantt x + burstSum ps x := by
  induction ps with
  | nil => intro s x; simp [burstSum_nil]
  | cons p rest ih =>
      intro s x
      have hp := hpos p (List.mem_cons_self p rest)
      have hrest : ∀ q ∈ rest, 0 < q.ArrivalTime :=
        fun q hq => hpos q (List.mem_cons_of_mem p hq)
      rw [List.foldl_cons, ih hrest, burstSum_cons]
      have hgantt : (fcfsStep s p).gantt
          = s.gantt ++
            [⟨p.ProcessID, (s.serviceTime - p.ArrivalTime) + p.ArrivalTime,
              s.serviceTime + p.BurstDuration⟩] := by
        simp only [fcfsStep]
        rw [if_pos hp]
      rw [hgantt, sliceDurSum_concat]
      by_cases hx : p.ProcessID = x <;> simp [hx] <;> omega

lemma fcfs_foldl_lastCompletion :
    ∀ (ps : List Process) (s : FCFSState), ps ≠ [] →
      (ps.foldl fcfsStep s).lastCompletion
        = (((ps.foldl fcfsStep s).schedule).getLastD default).completion
  | [], _, h => absurd rfl h
  | [p], s, _ => by
      simp only [List.foldl_cons, List.foldl_nil, fcfsStep]
      rw [getLastD_append_single_row]
  | p :: q :: rest, s, _ => by
      rw [List.foldl_cons]
      exact fcfs_foldl_lastCompletion (q :: rest) (fcfsStep s p) (by simp)

/-! Invariants of the SJF loop. -/

lemma sjfStep_fst_length (l : List Process) (hne : l ≠ []) (s : SJFState) :
    ((sjfStep l s).1).length + 1 = l.length := by
  have hk := sjfSelectIdx_lt_length l hne
  simp only [sjfStep]
  rw [List.length_eraseIdx]
  simp only [hk, if_pos]
  omega

lemma sjfLoopN_rows_keys :
    ∀ (n : Nat) (l : List Process) (s : SJFState), n = l.length →
      (((sjfLoopN n l s).rows).map rowKey).Perm
        (s.rows.map rowKey ++ l.map procKey) := by
  intro n
  induction n with
  | zero =>
      intro l s h
      have hl : l = [] := List.length_eq_zero.mp h.symm
      subst hl
      simp [sjfLoopN]
  | succ n ih =>
      intro l s h
      cases l with
      | nil => simp at h
      | cons p t =>
          have hne : (p :: t) ≠ [] := by simp
          have hk := sjfSelectIdx_lt_length (p :: t) hne
          have hlen : ((sjfStep (p :: t) s).1).length = n := by
            have hh := sjfStep_fst_length (p :: t) hne s
            simp only [List.length_cons] at hh h
            omega
          have ihs := ih (sjfStep (p :: t) s).1 (sjfStep (p :: t) s).2 hlen.symm
          have hperm : ((p :: t).getD (sjfSelectIdx (p :: t)) default ::
              (p :: t).eraseIdx (sjfSelectIdx (p :: t))).Perm (p :: t) :=
            (perm_getD_cons_eraseIdx (p :: t) _ hk).symm
          rw [sjfLoopN]
          refine ihs.trans ?_
          simp only [sjfStep, List.map_append, List.map_cons, List.map_nil]
          rw [List.append_assoc]
          refine List.Perm.append_left _ ?_
          have hmap := hperm.map procKey
          simpa [rowKey, procKey] using hmap

lemma sjfLoopN_gantt_sum :
    ∀ (n : Nat) (l : List Process) (s : SJFState), n = l.length →
      ∀ x : Int,
        sliceDurSum ((sjfLoopN n l s).gantt) x
          = sliceDurSum s.gantt x + burstSum l x := by
  intro n
  induction n with
  | zero =>
      intro l s h x
      have hl : l = [] := List.length_eq_zero.mp h.symm
      subst hl
      simp [sjfLoopN, burstSum_nil]
  | succ n ih =>
      intro l s h x
      cases l with
      | nil => simp at h
      | cons p t =>
          have hne : (p :: t) ≠ [] := by simp
          have hk := sjfSelectIdx_lt_length (p :: t) hne
          have hlen : ((sjfStep (p :: t) s).1).length = n := by
            have hh := sjfStep_fst_length (p :: t) hne s
            simp only [List.length_cons] at hh h
            omega
          have ihs := ih (sjfStep (p :: t) s).1 (sjfStep (p :: t) s).2 hlen.symm x
          rw [sjfLoopN]
          rw [ihs]
          rw [burstSum_eraseIdx (p :: t) (sjfSelectIdx (p :: t)) hk x]
          simp only [sjfStep]
          rw [sliceDurSum_concat]
          by_cases hx : ((p :: t).getD (sjfSelectIdx (p :: t)) default).ProcessID = x <;>
            simp [hx] <;> omega

lemma sjfLoopN_last_stop :
    ∀ (n : Nat) (l : List Process) (s : SJFState), n = l.length → l ≠ [] →
      (sjfLoopN n l s).currTime
        = (((sjfLoopN n l s).gantt).getLastD default).Stop := by
  intro n
  induction n with
  | zero =>
      intro l s h hne
      exact absurd (List.length_eq_zero.mp h.symm) hne
  | succ n ih =>
      intro l s h hne
      cases l with
      | nil => simp at h
      | cons p t =>
          cases n with
          | zero =>
              have ht : t = [] := by
                simp only [List.length_cons] at h
                exact List.length_eq_zero.mp (by omega)
              subst ht
              rw [sjfLoopN]
              have hstep : (sjfStep [p] s).1 = [] := by
                simp [sjfStep, sjfSelectIdx]
              rw [hstep]
              simp only [sjfLoopN]
              simp only [sjfStep, sjfSelectIdx, postRemovalBurst]
              simp [getLastD_append_single]
          | succ m =>
              have hlen : ((sjfStep (p :: t) s).1).length = m + 1 := by
                have hh := sjfStep_fst_length (p :: t) (by simp) s
                simp only [List.length_cons] at hh h
                omega
              have hne2 : (sjfStep (p :: t) s).1 ≠ [] := by
                intro hc
                rw [hc] at hlen
                simp at hlen
              rw [sjfLoopN]
              exact ih (sjfStep (p :: t) s).1 (sjfStep (p :: t) s).2 hlen.symm hne2

/-! Invariants of the SJF-Priority loop. -/

lemma sjfpStep_fst (l : List Process) (k : Nat) (s : SJFState) :
    (sjfpStep l k s).1 = removeFirstByID ((l.getD k default).ProcessID) l := by
  simp [sjfpStep]

lemma sjfpStep_fst_length (l : List Process) (k : Nat) (hk : k < l.length)
    (s : SJFState) : ((sjfpStep l k s).1).length + 1 = l.length := by
  rw [sjfpStep_fst]
  exact removeFirstByID_length l
    (List.mem_map_of_mem Process.ProcessID (getD_mem_of_lt hk))

lemma sjfpRound_eq (l : List Process) (hne : l ≠ []) (s : SJFState) :
    ∃ k t', sjfpSelect t' l = some k ∧
      sjfpRound l s = sjfpStep l k { s with currTime := t' } := by
  cases h : sjfpSelect s.currTime l with
  | some k =>
      refine ⟨k, s.currTime, h, ?_⟩
      simp only [sjfpRound, h]
  | none =>
      have hnn := sjfpSelect_nextArrival_ne_none l s.currTime hne h
      obtain ⟨k, hk⟩ := Option.ne_none_iff_exists.mp hnn
      refine ⟨k, nextArrivalTime l s.currTime, hk.symm, ?_⟩
      simp only [sjfpRound, h, hk.symm]

lemma sjfpLoopN_rows_ids :
    ∀ (n : Nat) (l : List Process) (s : SJFState), n = l.length →
      (((sjfpLoopN n l s).rows).map MetricsRow.id).Perm
        (s.rows.map MetricsRow.id ++ l.map Process.ProcessID) := by
  intro n
  induction n with
  | zero =>
      intro l s h
      have hl : l = [] := List.length_eq_zero.mp h.symm
      subst hl
      simp [sjfpLoopN]
  | succ n ih =>
      intro l s h
      cases l with
      | nil => simp at h
      | cons p t =>
          obtain ⟨k, t', hsel, heq⟩ := sjfpRound_eq (p :: t) (by simp) s
          have hk := (sjfpSelect_spec t' (p :: t) k hsel).1
          have hlen :
              ((sjfpStep (p :: t) k { s with currTime := t' }).1).length = n := by
            have hh := sjfpStep_fst_length (p :: t) k hk { s with currTime := t' }
            simp only [List.length_cons] at hh h
            omega
          have ihs := ih _ (sjfpStep (p :: t) k { s with currTime := t' }).2
            hlen.symm
          rw [sjfpLoopN]
          rw [heq]
          refine ihs.trans ?_
          have hperm := removeFirstByID_map_pid_perm (p :: t)
            (List.mem_map_of_mem Process.ProcessID (getD_mem_of_lt hk))
          simp only [sjfpStep, List.map_append, List.map_cons, List.map_nil]
          rw [List.append_assoc]
          exact List.Perm.append_left _ (by simpa using hperm.symm)

lemma sjfpLoopN_rows_keys :
    ∀ (n : Nat) (l : List Process) (s : SJFState), n = l.length →
      (l.map Process.ProcessID).Nodup →
      (((sjfpLoopN n l s).rows).map rowKey).Perm
        (s.rows.map rowKey ++ l.map procKey) := by
  intro n
  induction n with
  | zero =>
      intro l s h _
      have hl : l = [] := List.length_eq_zero.mp h.symm
      subst hl
      simp [sjfpLoopN]
  | succ n ih =>
      intro l s h hnd
      cases l with
      | nil => simp at h
      | cons p t =>
          obtain ⟨k, t', hsel, heq⟩ := sjfpRound_eq (p :: t) (by simp) s
          have hk := (sjfpSelect_spec t' (p :: t) k hsel).1
          have herase :
              (sjfpStep (p :: t) k { s with currTime := t' }).1
                = (p :: t).eraseIdx k := by
            rw [sjfpStep_fst]
            exact removeFirstByID_eq_eraseIdx (p :: t) k hk hnd
          have hnd' : (((p :: t).eraseIdx k).map Process.ProcessID).Nodup :=
            List.Nodup.sublist ((List.eraseIdx_sublist (p :: t) k).map _) hnd
          have hlen :
              ((sjfpStep (p :: t) k { s with currTime := t' }).1).length = n := by
            have hh := sjfpStep_fst_length (p :: t) k hk { s with currTime := t' }
            simp only [List.length_cons] at hh h
            omega
          have ihs := ih _ (sjfpStep (p :: t) k { s with currTime := t' }).2
            hlen.symm (herase ▸ hnd')
          rw [sjfpLoopN]
          rw [heq]
          refine ihs.trans ?_
          have hperm : (((p :: t).getD k default :: (p :: t).eraseIdx k)).Perm
              (p :: t) := (perm_getD_cons_eraseIdx (p :: t) k hk).symm
          simp only [sjfpStep, herase, List.map_append, List.map_cons,
            List.map_nil]
          rw [List.append_assoc]
          refine List.Perm.append_left _ ?_
          have hmap := hperm.map procKey
          simp only [sjfpStep_fst] at herase
          rw [herase]
          simpa [rowKey, procKey] using hmap

lemma sjfpLoopN_gantt_sum :
    ∀ (n : Nat) (l : List Process) (s : SJFState), n = l.length →
      (l.map Process.ProcessID).Nodup → ∀ x : Int,
      sliceDurSum ((sjfpLoopN n l s).gantt) x
        = sliceDurSum s.gantt x + burstSum l x := by
  intro n
  induction n with
  | zero =>
      intro l s h _ x
      have hl : l = [] := List.length_eq_zero.mp h.symm
      subst hl
      simp [sjfpLoopN, burstSum_nil]
  | succ n ih =>
      intro l s h hnd x
      cases l with
      | nil => simp at h
      | cons p t =>
          obtain ⟨k, t', hsel, heq⟩ := sjfpRound_eq (p :: t) (by simp) s
          have hk := (sjfpSelect_spec t' (p :: t) k hsel).1
          have herase :
              (sjfpStep (p :: t) k { s with currTime := t' }).1
                = (p :: t).eraseIdx k := by
            rw [sjfpStep_fst]
            exact removeFirstByID_eq_eraseIdx (p :: t) k hk hnd
          have hnd' : (((p :: t).eraseIdx k).map Process.ProcessID).Nodup :=
            List.Nodup.sublist ((List.eraseIdx_sublist (p :: t) k).map _) hnd
          have hlen :
              ((sjfpStep (p :: t) k { s with currTime := t' }).1).length = n := by
            have hh := sjfpStep_fst_length (p :: t) k hk { s with currTime := t' }
            simp only [List.length_cons] at hh h
            omega
          have ihs := ih _ (sjfpStep (p :: t) k { s with currTime := t' }).2
            hlen.symm (herase ▸ hnd') x
          rw [sjfpLoopN]
          rw [heq]
          rw [ihs, herase, burstSum_eraseIdx (p :: t) k hk x]
          simp only [sjfpStep]
          rw [sliceDurSum_concat]
          by_cases hx : ((p :: t).getD k default).ProcessID = x <;>
            simp [hx] <;> omega

lemma sjfpLoopN_last_stop :
    ∀ (n : Nat) (l : List Process) (s : SJFState), n = l.length → l ≠ [] →
      (sjfpLoopN n l s).currTime
        = (((sjfpLoopN n l s).gantt).getLastD default).Stop := by
  intro n
  induction n with
  | zero =>
      intro l s h hne
      exact absurd (List.length_eq_zero.mp h.symm) hne
  | succ n ih =>
      intro l s h hne
      cases l with
      | nil => simp at h
      | cons p t =>
          obtain ⟨k, t', hsel, heq⟩ := sjfpRound_eq (p :: t) (by simp) s
          have hk := (sjfpSelect_spec t' (p :: t) k hsel).1
          cases n with
          | zero =>
              have ht : t = [] := by
                simp only [List.length_cons] at h
                exact List.length_eq_zero.mp (by omega)
              subst ht
              have hk0 : k = 0 := by
                simp only [List.length_cons, List.length_nil] at hk
                omega
              subst hk0
              rw [sjfpLoopN]
              rw [heq]
              have hstep : (sjfpStep [p] 0 { s with currTime := t' }).1 = [] := by
                simp [sjfpStep_fst, removeFirstByID]
              rw [hstep]
              simp only [sjfpLoopN]
              simp only [sjfpStep, postRemovalBurst]
              simp [getLastD_append_single]
          | succ m =>
              have hlen :
                  ((sjfpStep (p :: t) k { s with currTime := t' }).1).length
                    = m + 1 := by
                have hh := sjfpStep_fst_length (p :: t) k hk
                  { s with currTime := t' }
                simp only [List.length_cons] at hh h
                omega
              have hne2 : (sjfpStep (p :: t) k { s with currTime := t' }).1 ≠ [] := by
                intro hc
                rw [hc] at hlen
                simp at hlen
              rw [sjfpLoopN]
              rw [heq]
              exact ih _ _ hlen.symm hne2

/-! Invariants of the round-robin loop. -/

lemma goMin_le_left (a b : Int) : goMin a b ≤ a := by
  unfold goMin
  split <;> omega

lemma rrMeasure_nil : rrMeasure [] = 0 := rfl

lemma rrMeasure_cons (p : Process) (queue : List Process) :
    rrMeasure (p :: queue) = p.BurstDuration.toNat + 1 + rrMeasure queue := by
  simp [rrMeasure, Nat.add_comm]

lemma rrMeasure_append_single (queue : List Process) (p : Process) :
    rrMeasure (queue ++ [p]) = rrMeasure queue + (p.BurstDuration.toNat + 1) := by
  simp [rrMeasure]

lemma rr_reenqueue_toNat_lt {q : Int} (p : Process) (hq : 1 ≤ q)
    (h : 0 < p.BurstDuration - goMin p.BurstDuration q) :
    (p.BurstDuration - goMin p.BurstDuration q).toNat
      < p.BurstDuration.toNat := by
  by_cases hbq : p.BurstDuration < q <;> simp [goMin, hbq] at h ⊢ <;> omega

lemma rr_done_ran_eq {q : Int} (p : Process)
    (h : ¬ 0 < p.BurstDuration - goMin p.BurstDuration q) :
    goMin p.BurstDuration q = p.BurstDuration := by
  have hle := goMin_le_left p.BurstDuration q
  omega

lemma rrLoopN_nil (q : Int) (n : Nat) (s : RRState) :
    rrLoopN q n [] s = s := by
  cases n <;> rfl

lemma rrLoopN_rows_ids (q : Int) (hq : 1 ≤ q) :
    ∀ (n : Nat) (queue : List Process) (s : RRState), rrMeasure queue ≤ n →
      (((rrLoopN q n queue s).rows).map MetricsRow.id).Perm
        (s.rows.map MetricsRow.id ++ queue.map Process.ProcessID) := by
  intro n
  induction n with
  | zero =>
      intro queue s hfuel
      cases queue with
      | nil => simp [rrLoopN_nil]
      | cons p rest => rw [rrMeasure_cons] at hfuel; omega
  | succ n ih =>
      intro queue s hfuel
      cases queue with
      | nil => simp [rrLoopN_nil]
      | cons p rest =>
          rw [rrMeasure_cons] at hfuel
          rw [rrLoopN]
          split
          next hb =>
            simp only at hb
            have hmeas : rrMeasure (rest ++
                [{ p with BurstDuration :=
                    p.BurstDuration - goMin p.BurstDuration q }]) ≤ n := by
              rw [rrMeasure_append_single]
              have hlt := rr_reenqueue_toNat_lt p hq hb
              dsimp only at hlt ⊢
              omega
            refine (ih _ _ hmeas).trans ?_
            simp only [List.map_append, List.map_cons, List.map_nil]
            refine List.Perm.append_left _ ?_
            simpa using List.perm_append_singleton p.ProcessID
              (rest.map Process.ProcessID)
          next hb =>
            have hmeas : rrMeasure rest ≤ n := by omega
            refine (ih _ _ hmeas).trans ?_
            simp only [List.map_append, List.map_cons, List.map_nil,
              List.append_assoc, List.singleton_append]
            exact List.Perm.refl _

lemma rrLoopN_gantt_sum (q : Int) (hq : 1 ≤ q) :
    ∀ (n : Nat) (queue : List Process) (s : RRState), rrMeasure queue ≤ n →
      ∀ x : Int,
        sliceDurSum ((rrLoopN q n queue s).gantt) x
          = sliceDurSum s.gantt x + burstSum queue x := by
  intro n
  induction n with
  | zero =>
      intro queue s hfuel x
      cases queue with
      | nil => simp [rrLoopN_nil, burstSum_nil]
      | cons p rest => rw [rrMeasure_cons] at hfuel; omega
  | succ n ih =>
      intro queue s hfuel x
      cases queue with
      | nil => simp [rrLoopN_nil, burstSum_nil]
      | cons p rest =>
          rw [rrMeasure_cons] at hfuel
          rw [rrLoopN]
          split
          next hb =>
            simp only at hb
            have hmeas : rrMeasure (rest ++
                [{ p with BurstDuration :=
                    p.BurstDuration - goMin p.BurstDuration q }]) ≤ n := by
              rw [rrMeasure_append_single]
              have hlt := rr_reenqueue_toNat_lt p hq hb
              dsimp only at hlt ⊢
              omega
            rw [ih _ _ hmeas x]
            simp only [sliceDurSum_concat]
            rw [burstSum_cons]
            have hap := burstSum_concat rest
              { p with BurstDuration :=
                  p.BurstDuration - goMin p.BurstDuration q } x
            rw [hap]
            by_cases hx : p.ProcessID = x <;> simp [hx] <;> omega
          next hb =>
            have hmeas : rrMeasure rest ≤ n := by omega
            rw [ih _ _ hmeas x]
            simp only [sliceDurSum_concat]
            rw [burstSum_cons]
            have hran := rr_done_ran_eq p (by simpa using hb)
            by_cases hx : p.ProcessID = x <;> simp [hx] <;> omega

lemma rrLoopN_rows_burst (q : Int) :
    ∀ (n : Nat) (queue : List Process) (s : RRState),
      (∀ r ∈ s.rows, r.burst = 0) →
      ∀ r ∈ (rrLoopN q n queue s).rows, r.burst = 0 := by
  intro n
  induction n with
  | zero =>
      intro queue s hrows
      cases queue <;> simpa [rrLoopN_nil, rrLoopN] using hrows
  | succ n ih =>
      intro queue s hrows
      cases queue with
      | nil => simpa [rrLoopN_nil] using hrows
      | cons p rest =>
          rw [rrLoopN]
          split
          next hb => exact ih _ _ hrows
          next hb =>
            refine ih _ _ ?_
            intro r hr
            rcases List.mem_append.mp hr with hr' | hr'
            · exact hrows r hr'
            · have hran := rr_done_ran_eq p (by simpa using hb)
              simp only [List.mem_singleton] at hr'
              subst hr'
              simp [hran]

lemma rrLoopN_last_stop (q : Int) (hq : 1 ≤ q) :
    ∀ (n : Nat) (queue : List Process) (s : RRState),
      rrMeasure queue ≤ n → queue ≠ [] →
      (rrLoopN q n queue s).elapsed
        = (((rrLoopN q n queue s).gantt).getLastD default).Stop := by
  intro n
  induction n with
  | zero =>
      intro queue s hfuel hne
      cases queue with
      | nil => exact absurd rfl hne
      | cons p rest => rw [rrMeasure_cons] at hfuel; omega
  | succ n ih =>
      intro queue s hfuel hne
      cases queue with
      | nil => exact absurd rfl hne
      | cons p rest =>
          rw [rrMeasure_cons] at hfuel
          rw [rrLoopN]
          split
          next hb =>
            simp only at hb
            have hmeas : rrMeasure (rest ++
                [{ p with BurstDuration :=
                    p.BurstDuration - goMin p.BurstDuration q }]) ≤ n := by
              rw [rrMeasure_append_single]
              have hlt := rr_reenqueue_toNat_lt p hq hb
              dsimp only at hlt ⊢
              omega
            exact ih _ _ hmeas (by simp)
          next hb =>
            cases rest with
            | nil =>
                rw [rrLoopN_nil]
                simp [getLastD_append_single]
            | cons p2 rest2 =>
                have hmeas : rrMeasure (p2 :: rest2) ≤ n := by
                  rw [rrMeasure_cons] at hfuel ⊢
                  omega
                exact ih _ _ hmeas (by simp)

/-! Claim theorems. -/

/-- C1 (counterexample): on the input `[(id=1,burst=24,arrival=0),
(id=2,burst=3,arrival=0), (id=3,burst=3,arrival=0)]` the FCFS scheduler does
not produce the claimed per-process waits `0, 24, 27`, nor the claimed
average wait `17`; because every arrival time is 0, the `ArrivalTime > 0`
guard never fires and every wait stays 0. -/
theorem C1_fcfs_example_cex :
    (fcfsRun [⟨1, 0, 24, 0⟩, ⟨2, 0, 3, 0⟩, ⟨3, 0, 3, 0⟩]).schedule.map
        MetricsRow.wait ≠ [0, 24, 27] ∧
    (FCFSSchedule [⟨1, 0, 24, 0⟩, ⟨2, 0, 3, 0⟩, ⟨3, 0, 3, 0⟩]).2.aveWait ≠ 17 := by
  constructor
  · decide
  · have h : (fcfsRun [⟨1, 0, 24, 0⟩, ⟨2, 0, 3, 0⟩, ⟨3, 0, 3, 0⟩]).totalWait = 0 := by
      decide
    simp [FCFSSchedule, h]

/-- C1 (amended): `FCFSSchedule` computes each wait by the rule
`fcfsWaitRule`: when a process's arrival time is positive the wait is
`serviceTimeSoFar - arrivalTime` with no clamping at 0, and when the arrival
time is not positive the previous process's wait value (initially 0) is
reused; consequently on the cited three-process all-zero-arrival input every
wait is 0 and the average wait is 0. -/
theorem C1_fcfs_wait_rule :
    (∀ ps : List Process,
        (fcfsRun ps).schedule.map MetricsRow.wait = fcfsWaitRule 0 0 ps) ∧
    (fcfsRun [⟨1, 0, 24, 0⟩, ⟨2, 0, 3, 0⟩, ⟨3, 0, 3, 0⟩]).schedule.map
        MetricsRow.wait = [0, 0, 0] ∧
    (FCFSSchedule [⟨1, 0, 24, 0⟩, ⟨2, 0, 3, 0⟩, ⟨3, 0, 3, 0⟩]).2.aveWait = 0 := by
  have h : (fcfsRun [⟨1, 0, 24, 0⟩, ⟨2, 0, 3, 0⟩, ⟨3, 0, 3, 0⟩]).totalWait = 0 := by
    decide
  refine ⟨?_, by decide, by simp [FCFSSchedule, h]⟩
  intro ps
  simpa [fcfsRun, fcfsInit] using fcfs_foldl_wait ps fcfsInit

/-- C3 (counterexample): `SJFSchedule` (and likewise `SJFPrioritySchedule`
and `RRSchedule`) hands the caller's slice to `sort.Slice`, reordering it in
place: after the call the caller's two-element slice with arrival times 3, 0
is left in order 0, 3, not in its original order. -/
theorem C3_sort_mutation_cex :
    sjfCallerAfter [⟨1, 3, 1, 0⟩, ⟨2, 0, 1, 0⟩] ≠ [⟨1, 3, 1, 0⟩, ⟨2, 0, 1, 0⟩] ∧
    sjfpCallerAfter [⟨1, 3, 1, 0⟩, ⟨2, 0, 1, 0⟩] ≠ [⟨1, 3, 1, 0⟩, ⟨2, 0, 1, 0⟩] ∧
    rrCallerAfter [⟨1, 3, 1, 0⟩, ⟨2, 0, 1, 0⟩] ≠ [⟨1, 3, 1, 0⟩, ⟨2, 0, 1, 0⟩] := by
  refine ⟨by decide, by decide, by decide⟩

/-- C3 (amended): `FCFSSchedule` only reads the caller's slice, so it is
unchanged; `SJFSchedule`, `SJFPrioritySchedule` and `RRSchedule` each sort
the caller's slice in place before copying it, so later invocations observe
a reordered — not pristine — slice, but the multiset of process records
(hence every id, burst, arrival and priority value) is preserved: the
post-call slice is always a permutation of the input. -/
theorem C3_caller_slice_amended :
    (∀ ps : List Process, fcfsCallerAfter ps = ps) ∧
    (∀ ps : List Process, (sjfCallerAfter ps).Perm ps) ∧
    (∀ ps : List Process, (sjfpCallerAfter ps).Perm ps) ∧
    (∀ ps : List Process, (rrCallerAfter ps).Perm ps) := by
  exact ⟨fun ps => rfl, fun ps => sortSlice_perm _ ps,
    fun ps => sortSlice_perm _ ps, fun ps => sortSlice_perm _ ps⟩

/-- C4 (code bug): on the input `[(id=1,arrival=0,burst=5),
(id=2,arrival=1,burst=1), (id=3,arrival=2,burst=7)]` (whose arrival keys are
pairwise distinct, so the sorted order is unique), SJF first runs process 2
in slice [1,2] — but then advances the clock to 8, not to 2: after the
in-place removal shifts the slice, the Go pointer `shortest` reads the burst
(7) of the element that slid into the removed slot, so the clock advances by
the wrong burst whenever the selected index is not the last one.  The final
clock is 22 where the claim's rule yields 14. -/
theorem C4_sjf_clock_bug :
    (SJFSchedule [⟨1, 0, 5, 0⟩, ⟨2, 1, 1, 0⟩, ⟨3, 2, 7, 0⟩]).1.gantt
        = [⟨2, 1, 2⟩, ⟨1, 8, 13⟩, ⟨3, 15, 22⟩] ∧
    (SJFSchedule [⟨1, 0, 5, 0⟩, ⟨2, 1, 1, 0⟩, ⟨3, 2, 7, 0⟩]).1.currTime = 22 ∧
    (SJFSchedule [⟨1, 0, 5, 0⟩, ⟨2, 1, 1, 0⟩, ⟨3, 2, 7, 0⟩]).1.gantt
        ≠ [⟨2, 1, 2⟩, ⟨1, 2, 7⟩, ⟨3, 7, 14⟩] := by
  refine ⟨by decide, by decide, by decide⟩

/-- C5 (code bug): the arrival gate, burst/priority selection and idle-skip
of `SJFPrioritySchedule` behave as claimed (the singleton conjunct shows the
clock idle-skipping to arrival time 5), but the clock advance is wrong for
the same dangling-pointer reason as in SJF: on
`[(id=1,arrival=0,burst=2,priority=1), (id=2,arrival=0,burst=6,priority=2)]`
process 1 runs in slice [0,2] and the clock then jumps to 6 (process 2's
burst), not to 2; the final clock is 12 where the claim's rule yields 8. -/
theorem C5_sjfp_clock_bug :
    (SJFPrioritySchedule [⟨1, 0, 2, 1⟩, ⟨2, 0, 6, 2⟩]).1.gantt
        = [⟨1, 0, 2⟩, ⟨2, 6, 12⟩] ∧
    (SJFPrioritySchedule [⟨1, 0, 2, 1⟩, ⟨2, 0, 6, 2⟩]).1.currTime = 12 ∧
    (SJFPrioritySchedule [⟨1, 0, 2, 1⟩, ⟨2, 0, 6, 2⟩]).1.gantt
        ≠ [⟨1, 0, 2⟩, ⟨2, 2, 8⟩] ∧
    (SJFPrioritySchedule [⟨1, 5, 2, 0⟩]).1.gantt = [⟨1, 5, 7⟩] := by
  refine ⟨by decide, by decide, by decide, by decide⟩

lemma map_id_of_keys_perm {rows : List MetricsRow} {ps : List Process}
    (h : (rows.map rowKey).Perm (ps.map procKey)) :
    (rows.map MetricsRow.id).Perm (ps.map Process.ProcessID) := by
  have hm := h.map Prod.fst
  simpa [List.map_map, Function.comp, rowKey, procKey] using hm

lemma sjf_state_eq (ps : List Process) :
    (SJFSchedule ps).1
      = sjfLoopN (sortSlice lessByArrival ps).length
          (sortSlice lessByArrival ps) ⟨0, 0, 0, [], []⟩ := rfl

lemma sjfp_state_eq (ps : List Process) :
    (SJFPrioritySchedule ps).1
      = sjfpLoopN (sortSlice lessByArrivalPriorityBurst ps).length
          (sortSlice lessByArrivalPriorityBurst ps) ⟨0, 0, 0, [], []⟩ := rfl

lemma rr_state_eq (ps : List Process) (q : Int) :
    (RRSchedule ps q).1
      = rrLoopN q (rrMeasure (sortSlice lessByArrival ps))
          (sortSlice lessByArrival ps) ⟨0, 0, 0, [], []⟩ := rfl

lemma sjf_rows_keys_perm (ps : List Process) :
    (((SJFSchedule ps).1.rows).map rowKey).Perm (ps.map procKey) := by
  rw [sjf_state_eq]
  have h := sjfLoopN_rows_keys (sortSlice lessByArrival ps).length
    (sortSlice lessByArrival ps) ⟨0, 0, 0, [], []⟩ rfl
  simp only [List.nil_append] at h
  exact h.trans ((sortSlice_perm lessByArrival ps).map procKey)

lemma sjfp_rows_ids_perm (ps : List Process) :
    (((SJFPrioritySchedule ps).1.rows).map MetricsRow.id).Perm
      (ps.map Process.ProcessID) := by
  rw [sjfp_state_eq]
  have h := sjfpLoopN_rows_ids (sortSlice lessByArrivalPriorityBurst ps).length
    (sortSlice lessByArrivalPriorityBurst ps) ⟨0, 0, 0, [], []⟩ rfl
  simp only [List.nil_append] at h
  exact h.trans ((sortSlice_perm lessByArrivalPriorityBurst ps).map
    Process.ProcessID)

lemma rr_rows_ids_perm (ps : List Process) (q : Int) (hq : 1 ≤ q) :
    (((RRSchedule ps q).1.rows).map MetricsRow.id).Perm
      (ps.map Process.ProcessID) := by
  rw [rr_state_eq]
  have h := rrLoopN_rows_ids q hq (rrMeasure (sortSlice lessByArrival ps))
    (sortSlice lessByArrival ps) ⟨0, 0, 0, [], []⟩ (le_refl _)
  simp only [List.nil_append] at h
  exact h.trans ((sortSlice_perm lessByArrival ps).map Process.ProcessID)

/-- C2 (code bug): the append-based schedulers pre-size the table with
`make([][]string, len(processes))` and then `append` the computed rows, so
the table handed to `outputSchedule` has `2·n` rows — `n` empty placeholder
rows followed by the `n` computed rows — not `n` as claimed (FCFS, which
assigns by index instead of appending, hands exactly `n` rows).  The
per-process facts of the claim do hold for the computed rows: each scheduler
emits exactly one row per input process and the multiset of emitted row ids
equals the multiset of input ids. -/
theorem C2_table_rows :
    (sjfHandedTable [⟨1, 0, 1, 0⟩]).length = 2 ∧
    (∀ ps : List Process,
      (fcfsRun ps).schedule.length = ps.length ∧
      (fcfsRun ps).schedule.map MetricsRow.id = ps.map Process.ProcessID) ∧
    (∀ ps : List Process,
      (sjfHandedTable ps).length = 2 * ps.length ∧
      (SJFSchedule ps).1.rows.length = ps.length ∧
      (((SJFSchedule ps).1.rows).map MetricsRow.id).Perm
        (ps.map Process.ProcessID)) ∧
    (∀ ps : List Process,
      (sjfpHandedTable ps).length = 2 * ps.length ∧
      (SJFPrioritySchedule ps).1.rows.length = ps.length ∧
      (((SJFPrioritySchedule ps).1.rows).map MetricsRow.id).Perm
        (ps.map Process.ProcessID)) ∧
    (∀ (ps : List Process) (q : Int), 1 ≤ q →
      (rrHandedTable ps q).length = 2 * ps.length ∧
      (RRSchedule ps q).1.rows.length = ps.length ∧
      (((RRSchedule ps q).1.rows).map MetricsRow.id).Perm
        (ps.map Process.ProcessID)) := by
  have hfcfs : ∀ ps : List Process,
      (fcfsRun ps).schedule.length = ps.length ∧
      (fcfsRun ps).schedule.map MetricsRow.id = ps.map Process.ProcessID := by
    intro ps
    have h := fcfs_foldl_keys ps fcfsInit
    simp only [fcfsInit, List.map_nil, List.nil_append] at h
    constructor
    · have hl := congrArg List.length h
      simpa using hl
    · have hm := congrArg (List.map Prod.fst) h
      simpa [List.map_map, Function.comp, rowKey, procKey] using hm
  have hsjf : ∀ ps : List Process,
      (SJFSchedule ps).1.rows.length = ps.length ∧
      (((SJFSchedule ps).1.rows).map MetricsRow.id).Perm
        (ps.map Process.ProcessID) := by
    intro ps
    have h := sjf_rows_keys_perm ps
    constructor
    · have hl := h.length_eq
      simpa using hl
    · exact map_id_of_keys_perm h
  have hsjfp : ∀ ps : List Process,
      (SJFPrioritySchedule ps).1.rows.length = ps.length ∧
      (((SJFPrioritySchedule ps).1.rows).map MetricsRow.id).Perm
        (ps.map Process.ProcessID) := by
    intro ps
    have h := sjfp_rows_ids_perm ps
    constructor
    · have hl := h.length_eq
      simpa using hl
    · exact h
  have hrr : ∀ (ps : List Process) (q : Int), 1 ≤ q →
      (RRSchedule ps q).1.rows.length = ps.length ∧
      (((RRSchedule ps q).1.rows).map MetricsRow.id).Perm
        (ps.map Process.ProcessID) := by
    intro ps q hq
    have h := rr_rows_ids_perm ps q hq
    constructor
    · have hl := h.length_eq
      simpa using hl
    · exact h
  refine ⟨by decide, hfcfs, ?_, ?_, ?_⟩
  · intro ps
    refine ⟨?_, (hsjf ps).1, (hsjf ps).2⟩
    simp [sjfHandedTable, handedTable, (hsjf ps).1]
    omega
  · intro ps
    refine ⟨?_, (hsjfp ps).1, (hsjfp ps).2⟩
    simp [sjfpHandedTable, handedTable, (hsjfp ps).1]
    omega
  · intro ps q hq
    refine ⟨?_, (hrr ps q hq).1, (hrr ps q hq).2⟩
    simp [rrHandedTable, handedTable, (hrr ps q hq).1]
    omega

/-- C2 witness: the round-robin part of `C2_table_rows` instantiated at a
single-process input with quantum 2. -/
theorem C2_table_rows_witness :
    (rrHandedTable [⟨1, 0, 1, 0⟩] 2).length
        = 2 * ([⟨1, 0, 1, 0⟩] : List Process).length ∧
    (RRSchedule [⟨1, 0, 1, 0⟩] 2).1.rows.length
        = ([⟨1, 0, 1, 0⟩] : List Process).length ∧
    (((RRSchedule [⟨1, 0, 1, 0⟩] 2).1.rows).map MetricsRow.id).Perm
      ([⟨1, 0, 1, 0⟩].map Process.ProcessID) :=
  C2_table_rows.2.2.2.2 [⟨1, 0, 1, 0⟩] 2 (by decide)

/-- C7 (counterexample): on `[(id=1,burst=2,arrival=0),
(id=2,burst=3,arrival=0)]` the FCFS Gantt slices are `[0,2]` and `[0,5]`:
because the second process's arrival time is 0 its wait reuses the stale
previous value 0, so its slice starts at 0 instead of 2 and the summed
slice duration for process 2 is 5, not its burst 3 — time is created. -/
theorem C7_fcfs_time_cex :
    ¬ (∀ p ∈ ([⟨1, 0, 2, 0⟩, ⟨2, 0, 3, 0⟩] : List Process),
        sliceDurSum (fcfsRun [⟨1, 0, 2, 0⟩, ⟨2, 0, 3, 0⟩]).gantt p.ProcessID
          = p.BurstDuration) := by
  decide

/-- C7 (amended): with pairwise-distinct process ids, the per-process sum of
Gantt slice durations equals the original burst for SJF, SJF-Priority, and
(for quantum ≥ 1) round-robin; for FCFS it holds under the additional
premise that every arrival time is positive (when a process with arrival
time 0 follows others, its slice is measured from the stale wait value and
the property can fail, as `C7_fcfs_time_cex` shows). -/
theorem C7_slice_durations (ps : List Process)
    (hnd : (ps.map Process.ProcessID).Nodup) :
    ∀ p ∈ ps,
      ((∀ r ∈ ps, 0 < r.ArrivalTime) →
        sliceDurSum (fcfsRun ps).gantt p.ProcessID = p.BurstDuration) ∧
      sliceDurSum (SJFSchedule ps).1.gantt p.ProcessID = p.BurstDuration ∧
      sliceDurSum (SJFPrioritySchedule ps).1.gantt p.ProcessID
        = p.BurstDuration ∧
      ∀ q : Int, 1 ≤ q →
        sliceDurSum (RRSchedule ps q).1.gantt p.ProcessID = p.BurstDuration := by
  intro p hp
  refine ⟨?_, ?_, ?_, ?_⟩
  · intro hpos
    have h := fcfs_foldl_gantt_sum ps hpos fcfsInit p.ProcessID
    have hb := burstSum_nodup hnd hp
    simpa [fcfsRun, fcfsInit, sliceDurSum, hb] using h
  · rw [sjf_state_eq]
    have h := sjfLoopN_gantt_sum (sortSlice lessByArrival ps).length
      (sortSlice lessByArrival ps) ⟨0, 0, 0, [], []⟩ rfl p.ProcessID
    have hperm := burstSum_perm (sortSlice_perm lessByArrival ps) p.ProcessID
    have hb := burstSum_nodup hnd hp
    simpa [sliceDurSum, hperm, hb] using h
  · rw [sjfp_state_eq]
    have hnds : ((sortSlice lessByArrivalPriorityBurst ps).map
        Process.ProcessID).Nodup :=
      (((sortSlice_perm lessByArrivalPriorityBurst ps).map
        Process.ProcessID).nodup_iff).mpr hnd
    have h := sjfpLoopN_gantt_sum
      (sortSlice lessByArrivalPriorityBurst ps).length
      (sortSlice lessByArrivalPriorityBurst ps) ⟨0, 0, 0, [], []⟩ rfl hnds
      p.ProcessID
    have hperm := burstSum_perm
      (sortSlice_perm lessByArrivalPriorityBurst ps) p.ProcessID
    have hb := burstSum_nodup hnd hp
    simpa [sliceDurSum, hperm, hb] using h
  · intro q hq
    rw [rr_state_eq]
    have h := rrLoopN_gantt_sum q hq (rrMeasure (sortSlice lessByArrival ps))
      (sortSlice lessByArrival ps) ⟨0, 0, 0, [], []⟩ (le_refl _) p.ProcessID
    have hperm := burstSum_perm (sortSlice_perm lessByArrival ps) p.ProcessID
    have hb := burstSum_nodup hnd hp
    simpa [sliceDurSum, hperm, hb] using h

/-- C7 witness: `C7_slice_durations` at a concrete two-process input with
distinct ids, positive arrivals and quantum 2. -/
theorem C7_slice_durations_witness :
    sliceDurSum (fcfsRun [⟨1, 2, 3, 0⟩, ⟨2, 1, 4, 0⟩]).gantt 1 = 3 ∧
    sliceDurSum (SJFSchedule [⟨1, 2, 3, 0⟩, ⟨2, 1, 4, 0⟩]).1.gantt 1 = 3 ∧
    sliceDurSum (SJFPrioritySchedule [⟨1, 2, 3, 0⟩, ⟨2, 1, 4, 0⟩]).1.gantt 1
      = 3 ∧
    sliceDurSum (RRSchedule [⟨1, 2, 3, 0⟩, ⟨2, 1, 4, 0⟩] 2).1.gantt 1 = 3 := by
  have h := C7_slice_durations [⟨1, 2, 3, 0⟩, ⟨2, 1, 4, 0⟩] (by decide)
    ⟨1, 2, 3, 0⟩ (by decide)
  exact ⟨h.1 (by decide), h.2.1, h.2.2.1, h.2.2.2 2 (by decide)⟩

/-- C8 (confirmed): under the data-model precondition, every scheduling loop
makes strict progress.  SJF removes exactly one process per iteration; the
SJF-Priority selected branch removes exactly one process, and its idle
branch strictly advances the clock to an arrival at which the next selection
necessarily succeeds; with quantum ≥ 1 a round-robin process's positive
remaining burst strictly decreases (staying ≥ 0) and the queue measure
`rrMeasure` strictly decreases on both the re-enqueue and the completion
branch, so every loop terminates on every finite input. -/
theorem C8_termination :
    (∀ (l : List Process) (s : SJFState), l ≠ [] →
      ((sjfStep l s).1).length < l.length) ∧
    (∀ (l : List Process) (k : Nat) (t' : Int) (s : SJFState),
      sjfpSelect t' l = some k → ((sjfpStep l k s).1).length < l.length) ∧
    (∀ (l : List Process) (t : Int), l ≠ [] → sjfpSelect t l = none →
      t < nextArrivalTime l t ∧
      sjfpSelect (nextArrivalTime l t) l ≠ none) ∧
    (∀ (q : Int) (p : Process), 1 ≤ q → 0 < p.BurstDuration →
      0 ≤ p.BurstDuration - goMin p.BurstDuration q ∧
      p.BurstDuration - goMin p.BurstDuration q < p.BurstDuration) ∧
    (∀ (q : Int) (p : Process) (queue : List Process), 1 ≤ q →
      0 < p.BurstDuration - goMin p.BurstDuration q →
      rrMeasure (queue ++
        [{ p with BurstDuration := p.BurstDuration - goMin p.BurstDuration q }])
        < rrMeasure (p :: queue)) ∧
    (∀ (p : Process) (queue : List Process),
      rrMeasure queue < rrMeasure (p :: queue)) := by
  refine ⟨?_, ?_, ?_, ?_, ?_, ?_⟩
  · intro l s hne
    have h := sjfStep_fst_length l hne s
    omega
  · intro l k t' s hsel
    have hk := (sjfpSelect_spec t' l k hsel).1
    have h := sjfpStep_fst_length l k hk s
    omega
  · intro l t hne hsel
    have hall := (sjfpSelect_none_iff t l).mp hsel
    exact ⟨(nextArrivalTime_spec l t hne hall).1,
      sjfpSelect_nextArrival_ne_none l t hne hsel⟩
  · intro q p hq hb
    by_cases hbq : p.BurstDuration < q <;> simp [goMin, hbq] <;> omega
  · intro q p queue hq hb
    have hlt := rr_reenqueue_toNat_lt p hq hb
    rw [rrMeasure_append_single, rrMeasure_cons]
    dsimp only at hlt ⊢
    omega
  · intro p queue
    rw [rrMeasure_cons]
    omega

/-- C8 witness: each progress fact of `C8_termination` instantiated at a
concrete input (a two-process list, clock 0, quantum 2). -/
theorem C8_termination_witness :
    ((sjfStep [⟨1, 0, 4, 0⟩, ⟨2, 3, 2, 0⟩] ⟨0, 0, 0, [], []⟩).1).length
        < ([⟨1, 0, 4, 0⟩, ⟨2, 3, 2, 0⟩] : List Process).length ∧
    ((sjfpStep [⟨1, 0, 4, 0⟩, ⟨2, 3, 2, 0⟩] 0 ⟨0, 0, 0, [], []⟩).1).length
        < ([⟨1, 0, 4, 0⟩, ⟨2, 3, 2, 0⟩] : List Process).length ∧
    ((0 : Int) < nextArrivalTime [⟨1, 2, 4, 0⟩, ⟨2, 3, 2, 0⟩] 0 ∧
      sjfpSelect (nextArrivalTime [⟨1, 2, 4, 0⟩, ⟨2, 3, 2, 0⟩] 0)
        [⟨1, 2, 4, 0⟩, ⟨2, 3, 2, 0⟩] ≠ none) ∧
    (0 ≤ (⟨1, 0, 4, 0⟩ : Process).BurstDuration -
        goMin (⟨1, 0, 4, 0⟩ : Process).BurstDuration 2 ∧
      (⟨1, 0, 4, 0⟩ : Process).BurstDuration -
        goMin (⟨1, 0, 4, 0⟩ : Process).BurstDuration 2
        < (⟨1, 0, 4, 0⟩ : Process).BurstDuration) ∧
    rrMeasure ([] ++
        [{ (⟨1, 0, 4, 0⟩ : Process) with
            BurstDuration := (⟨1, 0, 4, 0⟩ : Process).BurstDuration -
              goMin (⟨1, 0, 4, 0⟩ : Process).BurstDuration 2 }])
      < rrMeasure [⟨1, 0, 4, 0⟩] ∧
    rrMeasure [⟨2, 3, 2, 0⟩] < rrMeasure [⟨1, 0, 4, 0⟩, ⟨2, 3, 2, 0⟩] := by
  refine ⟨C8_termination.1 _ _ (by decide),
    C8_termination.2.1 _ 0 0 _ (by decide),
    C8_termination.2.2.1 _ 0 (by decide) (by decide),
    C8_termination.2.2.2.1 2 _ (by decide) (by decide),
    C8_termination.2.2.2.2.1 2 _ [] (by decide) (by decide),
    C8_termination.2.2.2.2.2 _ _⟩

/-- C9 (confirmed): each policy's reported throughput is the input process
count divided by that policy's own terminal clock: for FCFS the completion
value of its last table row, and for SJF, SJF-Priority and RR the Stop value
of the last slice of that policy's own Gantt timeline (which the loop
invariants show equals the final virtual clock / elapsed time). -/
theorem C9_throughput (ps : List Process) (hne : ps ≠ []) (q : Int)
    (hq : 1 ≤ q) :
    (FCFSSchedule ps).2.aveThroughput
        = (ps.length : ℚ) /
          ((((fcfsRun ps).schedule).getLastD default).completion : ℚ) ∧
    (SJFSchedule ps).2.aveThroughput
        = (ps.length : ℚ) /
          ((((SJFSchedule ps).1.gantt).getLastD default).Stop : ℚ) ∧
    (SJFPrioritySchedule ps).2.aveThroughput
        = (ps.length : ℚ) /
          ((((SJFPrioritySchedule ps).1.gantt).getLastD default).Stop : ℚ) ∧
    (RRSchedule ps q).2.aveThroughput
        = (ps.length : ℚ) /
          ((((RRSchedule ps q).1.gantt).getLastD default).Stop : ℚ) := by
  have hlen0 : ps.length ≠ 0 := fun hc => hne (List.length_eq_zero.mp hc)
  have hsorted1 : sortSlice lessByArrival ps ≠ [] := by
    intro hc
    have hl := (sortSlice_perm lessByArrival ps).length_eq
    rw [hc] at hl
    exact hlen0 hl.symm
  have hsorted2 : sortSlice lessByArrivalPriorityBurst ps ≠ [] := by
    intro hc
    have hl := (sortSlice_perm lessByArrivalPriorityBurst ps).length_eq
    rw [hc] at hl
    exact hlen0 hl.symm
  refine ⟨?_, ?_, ?_, ?_⟩
  · have h1 : (FCFSSchedule ps).2.aveThroughput
        = (ps.length : ℚ) / ((fcfsRun ps).lastCompletion : ℚ) := rfl
    rw [h1]
    have h2 := fcfs_foldl_lastCompletion ps fcfsInit hne
    rw [show fcfsRun ps = ps.foldl fcfsStep fcfsInit from rfl, h2]
  · have h1 : (SJFSchedule ps).2.aveThroughput
        = (ps.length : ℚ) / (((SJFSchedule ps).1).currTime : ℚ) := rfl
    rw [h1, sjf_state_eq]
    rw [sjfLoopN_last_stop (sortSlice lessByArrival ps).length
      (sortSlice lessByArrival ps) ⟨0, 0, 0, [], []⟩ rfl hsorted1]
  · have h1 : (SJFPrioritySchedule ps).2.aveThroughput
        = (ps.length : ℚ) / (((SJFPrioritySchedule ps).1).currTime : ℚ) := rfl
    rw [h1, sjfp_state_eq]
    rw [sjfpLoopN_last_stop (sortSlice lessByArrivalPriorityBurst ps).length
      (sortSlice lessByArrivalPriorityBurst ps) ⟨0, 0, 0, [], []⟩ rfl hsorted2]
  · have h1 : (RRSchedule ps q).2.aveThroughput
        = (ps.length : ℚ) / (((RRSchedule ps q).1).elapsed : ℚ) := rfl
    rw [h1, rr_state_eq]
    rw [rrLoopN_last_stop q hq (rrMeasure (sortSlice lessByArrival ps))
      (sortSlice lessByArrival ps) ⟨0, 0, 0, [], []⟩ (le_refl _) hsorted1]

/-- C9 witness: `C9_throughput` at the single-process input
`[(id=1,arrival=0,burst=2)]` with quantum 2. -/
theorem C9_throughput_witness :
    (FCFSSchedule [⟨1, 0, 2, 0⟩]).2.aveThroughput
        = (([⟨1, 0, 2, 0⟩] : List Process).length : ℚ) /
          ((((fcfsRun [⟨1, 0, 2, 0⟩]).schedule).getLastD default).completion : ℚ) ∧
    (SJFSchedule [⟨1, 0, 2, 0⟩]).2.aveThroughput
        = (([⟨1, 0, 2, 0⟩] : List Process).length : ℚ) /
          ((((SJFSchedule [⟨1, 0, 2, 0⟩]).1.gantt).getLastD default).Stop : ℚ) ∧
    (SJFPrioritySchedule [⟨1, 0, 2, 0⟩]).2.aveThroughput
        = (([⟨1, 0, 2, 0⟩] : List Process).length : ℚ) /
          ((((SJFPrioritySchedule [⟨1, 0, 2, 0⟩]).1.gantt).getLastD
            default).Stop : ℚ) ∧
    (RRSchedule [⟨1, 0, 2, 0⟩] 2).2.aveThroughput
        = (([⟨1, 0, 2, 0⟩] : List Process).length : ℚ) /
          ((((RRSchedule [⟨1, 0, 2, 0⟩] 2).1.gantt).getLastD default).Stop : ℚ) :=
  C9_throughput [⟨1, 0, 2, 0⟩] (by decide) 2 (by decide)

lemma sjfp_rows_keys_perm (ps : List Process)
    (hnd : (ps.map Process.ProcessID).Nodup) :
    (((SJFPrioritySchedule ps).1.rows).map rowKey).Perm (ps.map procKey) := by
  rw [sjfp_state_eq]
  have hnds : ((sortSlice lessByArrivalPriorityBurst ps).map
      Process.ProcessID).Nodup :=
    (((sortSlice_perm lessByArrivalPriorityBurst ps).map
      Process.ProcessID).nodup_iff).mpr hnd
  have h := sjfpLoopN_rows_keys
    (sortSlice lessByArrivalPriorityBurst ps).length
    (sortSlice lessByArrivalPriorityBurst ps) ⟨0, 0, 0, [], []⟩ rfl hnds
  simp only [List.nil_append] at h
  exact h.trans ((sortSlice_perm lessByArrivalPriorityBurst ps).map procKey)

/-- C10 (confirmed): every metrics row `RRSchedule` records shows a Burst
value of 0, because the row is built from `p.BurstDuration` after the final
decrement; the other three schedulers record the original burst in that
column — FCFS row-by-row in input order, SJF and (for distinct ids)
SJF-Priority as a permutation of the input's (id, burst) pairs. -/
theorem C10_rr_burst_column (ps : List Process) (q : Int) (hq : 1 ≤ q) :
    (∀ r ∈ (RRSchedule ps q).1.rows, r.burst = 0) ∧
    (fcfsRun ps).schedule.map rowKey = ps.map procKey ∧
    (((SJFSchedule ps).1.rows).map rowKey).Perm (ps.map procKey) ∧
    ((ps.map Process.ProcessID).Nodup →
      (((SJFPrioritySchedule ps).1.rows).map rowKey).Perm
        (ps.map procKey)) := by
  refine ⟨?_, ?_, sjf_rows_keys_perm ps, sjfp_rows_keys_perm ps⟩
  · rw [rr_state_eq]
    exact rrLoopN_rows_burst q (rrMeasure (sortSlice lessByArrival ps))
      (sortSlice lessByArrival ps) ⟨0, 0, 0, [], []⟩ (by intro r hr; cases hr)
  · have h := fcfs_foldl_keys ps fcfsInit
    simpa [fcfsRun, fcfsInit] using h

/-- C10 witness: `C10_rr_burst_column` at `[(id=1,arrival=0,burst=3,priority=2)]`
with quantum 2 (the process needs two quanta, and both recorded rows — here
one — carry burst 0 while the other policies keep burst 3). -/
theorem C10_rr_burst_column_witness :
    (∀ r ∈ (RRSchedule [⟨1, 0, 3, 2⟩] 2).1.rows, r.burst = 0) ∧
    (fcfsRun [⟨1, 0, 3, 2⟩]).schedule.map rowKey
        = [⟨1, 0, 3, 2⟩].map procKey ∧
    (((SJFSchedule [⟨1, 0, 3, 2⟩]).1.rows).map rowKey).Perm
        ([⟨1, 0, 3, 2⟩].map procKey) ∧
    ((([⟨1, 0, 3, 2⟩] : List Process).map Process.ProcessID).Nodup →
      (((SJFPrioritySchedule [⟨1, 0, 3, 2⟩]).1.rows).map rowKey).Perm
        ([⟨1, 0, 3, 2⟩].map procKey)) :=
  C10_rr_burst_column [⟨1, 0, 3, 2⟩] 2 (by decide)

/-- C6 (confirmed): one iteration of the `RRSchedule` loop dequeues the head
process `p`, runs it for `ran = min(remainingBurst, quantum)` appending the
time slice `[elapsed, elapsed + ran]` and advancing `elapsed` by `ran`,
re-enqueues it at the tail exactly when its remaining burst stays positive
(equivalently, when `quantum < remainingBurst`), and otherwise records a
metrics row whose turnaround is `elapsed - arrival` and whose wait is
`turnaround - (priority - 1) * 5` (the recorded Burst column is the fully
consumed remainder 0). -/
theorem C6_rr_step (q : Int) (p : Process) (queue : List Process)
    (s : RRState) (n : Nat) :
    (0 < p.BurstDuration - goMin p.BurstDuration q ↔ q < p.BurstDuration) ∧
    rrLoopN q (n + 1) (p :: queue) s =
      (if q < p.BurstDuration then
        rrLoopN q n
          (queue ++
            [{ p with
                BurstDuration := p.BurstDuration - goMin p.BurstDuration q }])
          { s with elapsed := s.elapsed + goMin p.BurstDuration q,
                   gantt := s.gantt ++
                     [⟨p.ProcessID, s.elapsed,
                       s.elapsed + goMin p.BurstDuration q⟩] }
      else
        rrLoopN q n queue
          { elapsed := s.elapsed + goMin p.BurstDuration q,
            wait := s.wait +
              ((s.elapsed + goMin p.BurstDuration q - p.ArrivalTime)
                - (p.Priority - 1) * 5),
            turn := s.turn +
              (s.elapsed + goMin p.BurstDuration q - p.ArrivalTime),
            gantt := s.gantt ++
              [⟨p.ProcessID, s.elapsed, s.elapsed + goMin p.BurstDuration q⟩],
            rows := s.rows ++
              [⟨p.ProcessID, p.Priority, 0, p.ArrivalTime,
                (s.elapsed + goMin p.BurstDuration q - p.ArrivalTime)
                  - (p.Priority - 1) * 5,
                s.elapsed + goMin p.BurstDuration q - p.ArrivalTime,
                s.elapsed + goMin p.BurstDuration q⟩] }) := by
  have hiff : 0 < p.BurstDuration - goMin p.BurstDuration q ↔
      q < p.BurstDuration := by
    by_cases hbq : p.BurstDuration < q <;> simp [goMin, hbq] <;> omega
  refine ⟨hiff, ?_⟩
  by_cases hqb : q < p.BurstDuration
  · rw [if_pos hqb]
    have h1 : 0 < p.BurstDuration - goMin p.BurstDuration q := hiff.mpr hqb
    simp [rrLoopN, h1]
  · rw [if_neg hqb]
    have hz : p.BurstDuration - goMin p.BurstDuration q = 0 := by
      unfold goMin
      split <;> omega
    simp [rrLoopN, hz, priorityPenalty]
